import Mathlib

/-!
Verification of the patch-profile matcher modules of DualBootPatcher
(`src/patchinfo/Google_Apps/gapps-gummy.py`,
`src/patchinfo/jflte/ROMs/AOSP/aosp.py`,
`src/patchinfo/jflte/ROMs/GoogleEdition/ge-MaKTaiL.py`).

Each module declares a `filename_regex` (a Python `re` pattern anchored with
`^` and `$`), a module-level `file_info` descriptor, a `matches(filename)`
predicate implemented with `re.search`, and a `get_file_info()` accessor.

We embed the three patterns as abstract syntax (each pattern is a plain
sequence of literal characters, `[0-9]` classes and `.` wildcards under the
quantifiers `{n}`, `+`, `*`), and embed `re.search` of an anchored pattern
faithfully: `re.search` tries every start position of the string; the leading
`^` assertion succeeds only at position 0 (no `re.MULTILINE`); the trailing
`$` assertion succeeds at the end of the string or just before one final
newline character; `.` matches any character except the newline.
-/

namespace DBP

/-- A single-character pattern element of the regexes used by the three
modules: a literal character, the class `[0-9]`, or the wildcard `.`. -/
inductive Atom
  | ch (c : Char)
  | digit
  | dot
deriving DecidableEq, Repr

/-- Whether one character is matched by an atom. Python `.` (without
`re.DOTALL`) matches every character except the newline. -/
def Atom.matchesChar : Atom → Char → Bool
  | .ch c, d => c == d
  | .digit, d => decide ('0' ≤ d) && decide (d ≤ '9')
  | .dot, d => !(d == '\n')

/-- A quantified pattern element: a bare atom, `a*`, `a+`, or `a{n}`. -/
inductive Item
  | atom (a : Atom)
  | star (a : Atom)
  | plus (a : Atom)
  | rep (a : Atom) (n : Nat)
deriving DecidableEq, Repr

/-- Every suffix of the input that can remain after `a*` consumes a prefix:
`a*` consumes zero or more consecutive characters matched by `a` (the
engine tries all such prefixes when backtracking). -/
def starSplits (a : Atom) : List Char → List (List Char)
  | [] => [[]]
  | c :: rest => (c :: rest) :: (if Atom.matchesChar a c then starSplits a rest else [])

/-- Every suffix of the input that can remain after `a{n}` consumes a
prefix: exactly `n` consecutive characters, each matched by `a`. -/
def repSplits (a : Atom) : Nat → List Char → List (List Char)
  | 0, rest => [rest]
  | _ + 1, [] => []
  | n + 1, c :: rest => if Atom.matchesChar a c then repSplits a n rest else []

/-- Every suffix of the input that can remain after one quantified pattern
element consumes a prefix of it. -/
def Item.splits : Item → List Char → List (List Char)
  | .atom _, [] => []
  | .atom a, c :: rest => if Atom.matchesChar a c then [rest] else []
  | .star a, rest => starSplits a rest
  | .plus _, [] => []
  | .plus a, c :: rest => if Atom.matchesChar a c then starSplits a rest else []
  | .rep a n, rest => repSplits a n rest

/-- Every suffix of the input that can remain after the whole item sequence
consumes a prefix of it (the pattern elements consume the input from left
to right; backtracking explores all the alternatives listed here). -/
def seqSplits : List Item → List Char → List (List Char)
  | [], rest => [rest]
  | it :: items, rest => (Item.splits it rest).flatMap (fun r => seqSplits items r)

/-- The `$` assertion of Python `re` (without `re.MULTILINE`): it holds at
the end of the input, or just before a newline that ends the input. -/
def dollarOk (rest : List Char) : Bool :=
  rest == [] || rest == ['\n']

/-- One attempt of the Python engine to match the anchored pattern
`^ items $` against the input suffix that begins at the attempt position:
the attempt succeeds iff the items can consume a prefix such that the
remaining characters satisfy the `$` assertion. -/
def matchSeq (items : List Item) (rest : List Char) : Bool :=
  (seqSplits items rest).any dollarOk

/-- Python `re.search` of an anchored pattern `^ items $`: the engine tries
each start position `i` of the string in turn; the `^` assertion succeeds
only when `i = 0` (there is no `re.MULTILINE` flag in these modules), after
which the body and the `$` assertion must match as in `matchSeq`. -/
def reSearch (items : List Item) (s : List Char) : Bool :=
  (List.range (s.length + 1)).any (fun i => (i == 0) && matchSeq items (List.drop i s))

/-- Items for a run of literal characters inside a pattern. -/
def lit (s : String) : List Item :=
  s.data.map (fun c => Item.atom (Atom.ch c))

/-- References to the two patch-engine behaviors installed by every module.
Modelled from the spec: `multiboot.autopatcher` is outside `src/`; the spec
treats `auto_patch` and `files_to_auto_patch` as opaque behavior references
invoked by the dispatch pipeline (sections 2 and 6). -/
inductive Behavior
  | auto_patch
  | files_to_auto_patch
deriving DecidableEq, Repr

/-- Profile descriptor record. Modelled from the spec: the class
`multiboot.fileinfo.FileInfo` is not under `src/`; per the data model of the
spec (section 3), `ramdisk_reference` is optional with `None` meaning no
ramdisk customization, `has_boot_image` is a boolean defaulting to true, and
the name and the two behavior references start unset until a module assigns
them. -/
structure FileInfo where
  name : Option String := none
  ramdisk : Option String := none
  has_boot_image : Bool := true
  patch : Option Behavior := none
  extract : Option Behavior := none
deriving DecidableEq, Repr

namespace GappsGummy

/-- Pattern of `src/patchinfo/Google_Apps/gapps-gummy.py`, source text
`r"^gapps-kk-[0-9]{8}\.zip$"`: the literal `gapps-kk-`, eight digits, then
the escaped dot and `zip`; `^` and `$` are handled by `reSearch`. -/
def filename_regex : List Item :=
  lit "gapps-kk-" ++ [Item.rep Atom.digit 8] ++ lit ".zip"

/-- Module-level descriptor of gapps-gummy.py: the module assigns the name,
the two behaviors, and sets `has_boot_image = False`; `ramdisk` stays at its
default. -/
def file_info : FileInfo :=
  { name := some "Gummy Google Apps"
    patch := some Behavior.auto_patch
    extract := some Behavior.files_to_auto_patch
    has_boot_image := false }

/-- The function `matches(filename)` of gapps-gummy.py: truthy iff
`re.search(filename_regex, filename)` finds a match. -/
def «matches» (filename : String) : Bool :=
  reSearch filename_regex filename.data

/-- The function `get_file_info()` of gapps-gummy.py. -/
def get_file_info : FileInfo :=
  file_info

end GappsGummy

namespace Aosp

/-- Pattern of `src/patchinfo/jflte/ROMs/AOSP/aosp.py`, source text
`r"^aosp[0-9]+-i9505-.*\.zip$"`: the literal `aosp`, one or more digits,
`-i9505-`, any run of non-newline characters, then the escaped dot and
`zip`. -/
def filename_regex : List Item :=
  lit "aosp" ++ [Item.plus Atom.digit] ++ lit "-i9505-" ++ [Item.star Atom.dot] ++ lit ".zip"

/-- Module-level descriptor of aosp.py: the module assigns the name, the
ramdisk reference and the two behaviors; `has_boot_image` stays at its
default. -/
def file_info : FileInfo :=
  { name := some "Broodplank\x27s AOSP"
    ramdisk := some "jflte/AOSP/AOSP.def"
    patch := some Behavior.auto_patch
    extract := some Behavior.files_to_auto_patch }

/-- The function `matches(filename)` of aosp.py. -/
def «matches» (filename : String) : Bool :=
  reSearch filename_regex filename.data

/-- The function `get_file_info()` of aosp.py. -/
def get_file_info : FileInfo :=
  file_info

end Aosp

namespace GeMaKTaiL

/-- Pattern of `src/patchinfo/jflte/ROMs/GoogleEdition/ge-MaKTaiL.py`,
source text `r"^i9505-ge-untouched-4.3-.*.zip$"`: the two dots around `3`
and before `zip` are NOT escaped, so they are wildcards; the pattern is the
literal `i9505-ge-untouched-4`, any non-newline character, `3-`, any run of
non-newline characters, one more non-newline character, then `zip`. -/
def filename_regex : List Item :=
  lit "i9505-ge-untouched-4" ++ [Item.atom Atom.dot] ++ lit "3-" ++
    [Item.star Atom.dot, Item.atom Atom.dot] ++ lit "zip"

/-- Module-level descriptor of ge-MaKTaiL.py: the module assigns the name,
the ramdisk reference and the two behaviors; `has_boot_image` stays at its
default. -/
def file_info : FileInfo :=
  { name := some "MaKTaiL\x27s Google Edition"
    ramdisk := some "jflte/GoogleEdition/GoogleEdition.def"
    patch := some Behavior.auto_patch
    extract := some Behavior.files_to_auto_patch }

/-- The function `matches(filename)` of ge-MaKTaiL.py. -/
def «matches» (filename : String) : Bool :=
  reSearch filename_regex filename.data

/-- The function `get_file_info()` of ge-MaKTaiL.py. -/
def get_file_info : FileInfo :=
  file_info

end GeMaKTaiL

/-- Language of one quantified pattern element, read off the pattern syntax
(the set of character runs the element stands for): a bare atom denotes the
one-character strings the atom matches, `a*` the runs of characters matched
by `a`, `a+` the non-empty such runs, and `a{n}` those of length exactly
`n`. -/
def Item.lang : Item → List Char → Prop
  | .atom a, u => ∃ c, u = [c] ∧ Atom.matchesChar a c = true
  | .star a, u => ∀ c ∈ u, Atom.matchesChar a c = true
  | .plus a, u => u ≠ [] ∧ ∀ c ∈ u, Atom.matchesChar a c = true
  | .rep a n, u => u.length = n ∧ ∀ c ∈ u, Atom.matchesChar a c = true

/-- Language of a whole pattern: the concatenation of the languages of its
elements, in order. -/
def itemsLang : List Item → List Char → Prop
  | [], s => s = []
  | it :: items, s => ∃ u v, s = u ++ v ∧ Item.lang it u ∧ itemsLang items v

/-- Acceptance of a complete input by the anchored pattern `^ items $`
under the Python convention for `$`: the input lies in the pattern language,
or it is a member of the pattern language followed by one final newline. -/
def acceptsPy (items : List Item) (s : List Char) : Prop :=
  itemsLang items s ∨ ∃ t, s = t ++ ['\n'] ∧ itemsLang items t

/-- The module-level state of one patchinfo module as created when Python
imports it: the pattern bound to `filename_regex` and the descriptor bound
to `file_info`. -/
structure ModuleState where
  filename_regex : List Item
  file_info : FileInfo
deriving DecidableEq, Repr

/-- The body of `matches` as a state transformer over the module state: it
evaluates `re.search(filename_regex, filename)` reading `filename_regex`
from the module state and returns True or False; the body contains no
assignment, so the state returned with the result is the entry state. -/
def matchesSt (st : ModuleState) (filename : String) : Bool × ModuleState :=
  if reSearch st.filename_regex filename.data then (true, st) else (false, st)

/-- The body of `get_file_info` as a state transformer over the module
state: it returns the descriptor bound to `file_info` and performs no
assignment. -/
def get_file_infoSt (st : ModuleState) : FileInfo × ModuleState :=
  (st.file_info, st)

/-- The module state after a sequence of `matches` calls, threading the
state through call after call. -/
def runMatches (st : ModuleState) (fs : List String) : ModuleState :=
  fs.foldl (fun s f => (matchesSt s f).2) st

/-- The state of the gapps-gummy.py module right after import. -/
def GappsGummy.initState : ModuleState :=
  ⟨GappsGummy.filename_regex, GappsGummy.file_info⟩

/-- The state of the aosp.py module right after import. -/
def Aosp.initState : ModuleState :=
  ⟨Aosp.filename_regex, Aosp.file_info⟩

/-- The state of the ge-MaKTaiL.py module right after import. -/
def GeMaKTaiL.initState : ModuleState :=
  ⟨GeMaKTaiL.filename_regex, GeMaKTaiL.file_info⟩

/-- Uppercasing every character of a filename, the transformation of the
case-sensitivity property. -/
def uppercased (s : String) : String :=
  ⟨s.data.map Char.toUpper⟩

/-- Whether the second character list starts with the first. -/
def startsWithSeq : List Char → List Char → Bool
  | [], _ => true
  | _ :: _, [] => false
  | n :: ns, h :: hs => n == h && startsWithSeq ns hs

/-- Whether the character list contains the first list as a contiguous
run. -/
def containsSeq (needle : List Char) : List Char → Bool
  | [] => startsWithSeq needle []
  | h :: hs => startsWithSeq needle (h :: hs) || containsSeq needle hs

/-- Whether the character list ends with the given run. -/
def endsWithSeq (pat hay : List Char) : Bool :=
  decide (pat.length ≤ hay.length) && (List.drop (hay.length - pat.length) hay == pat)

end DBP

namespace DBP

/-- For the anchored patterns of these modules, `re.search` reduces to the
single attempt at position 0: the `^` assertion fails every attempt at a
later position. -/
theorem reSearch_eq (items : List Item) (s : List Char) :
    reSearch items s = matchSeq items s := by
  rw [Bool.eq_iff_iff]
  simp only [reSearch, List.any_eq_true, List.mem_range, Bool.and_eq_true, beq_iff_eq]
  constructor
  · rintro ⟨i, -, rfl, h⟩
    simpa using h
  · intro h
    exact ⟨0, Nat.succ_pos _, rfl, by simpa using h⟩

/-- The suffixes reachable through `a*` are exactly those obtained by
removing a prefix of characters matched by `a`. -/
theorem mem_starSplits {a : Atom} {s r : List Char} :
    r ∈ starSplits a s ↔ ∃ u, s = u ++ r ∧ ∀ c ∈ u, Atom.matchesChar a c = true := by
  induction s generalizing r with
  | nil =>
    simp only [starSplits, List.mem_singleton]
    constructor
    · rintro rfl
      exact ⟨[], rfl, by simp⟩
    · rintro ⟨u, hu, -⟩
      rcases List.append_eq_nil.mp hu.symm with ⟨-, rfl⟩
      rfl
  | cons c s ih =>
    simp only [starSplits, List.mem_cons]
    constructor
    · rintro (rfl | hr)
      · exact ⟨[], rfl, by simp⟩
      · by_cases hm : Atom.matchesChar a c = true
        · rw [if_pos hm] at hr
          obtain ⟨u, rfl, hall⟩ := ih.mp hr
          refine ⟨c :: u, rfl, ?_⟩
          intro d hd
          rcases List.mem_cons.mp hd with rfl | hd
          · exact hm
          · exact hall d hd
        · rw [if_neg hm] at hr
          cases hr
    · rintro ⟨u, hu, hall⟩
      cases u with
      | nil =>
        left
        simpa using hu.symm
      | cons d u =>
        have hu' : c = d ∧ s = u ++ r := by
          simpa using hu
        right
        have hm : Atom.matchesChar a c = true := by
          rw [hu'.1]
          exact hall d (List.mem_cons_self _ _)
        rw [if_pos hm]
        exact ih.mpr ⟨u, hu'.2, fun e he => hall e (List.mem_cons_of_mem _ he)⟩

/-- The suffixes reachable through `a{n}` are exactly those obtained by
removing a prefix of exactly `n` characters, each matched by `a`. -/
theorem mem_repSplits {a : Atom} {n : Nat} {s r : List Char} :
    r ∈ repSplits a n s ↔
      ∃ u, s = u ++ r ∧ u.length = n ∧ ∀ c ∈ u, Atom.matchesChar a c = true := by
  induction n generalizing s with
  | zero =>
    simp only [repSplits, List.mem_singleton]
    constructor
    · rintro rfl
      exact ⟨[], rfl, rfl, by simp⟩
    · rintro ⟨u, hu, hlen, -⟩
      rw [List.length_eq_zero.mp hlen] at hu
      exact hu.symm
  | succ n ih =>
    cases s with
    | nil =>
      simp only [repSplits, List.not_mem_nil, false_iff]
      rintro ⟨u, hu, hlen, -⟩
      rcases List.append_eq_nil.mp hu.symm with ⟨rfl, -⟩
      cases hlen
    | cons c s =>
      simp only [repSplits]
      by_cases hm : Atom.matchesChar a c = true
      · rw [if_pos hm, ih]
        constructor
        · rintro ⟨u, rfl, hlen, hall⟩
          refine ⟨c :: u, rfl, by simp [hlen], ?_⟩
          intro d hd
          rcases List.mem_cons.mp hd with rfl | hd
          · exact hm
          · exact hall d hd
        · rintro ⟨u, hu, hlen, hall⟩
          cases u with
          | nil => cases hlen
          | cons d u =>
            have hu' : c = d ∧ s = u ++ r := by
              simpa using hu
            exact ⟨u, hu'.2, by simpa using hlen, fun e he => hall e (List.mem_cons_of_mem _ he)⟩
      · rw [if_neg hm]
        simp only [List.not_mem_nil, false_iff]
        rintro ⟨u, hu, hlen, hall⟩
        cases u with
        | nil => cases hlen
        | cons d u =>
          have hu' : c = d ∧ s = u ++ r := by
            simpa using hu
          exact hm (by rw [hu'.1]; exact hall d (List.mem_cons_self _ _))

/-- The suffixes reachable through one pattern element are exactly those
obtained by removing a prefix that lies in the language of the element. -/
theorem mem_itemSplits {it : Item} {s r : List Char} :
    r ∈ Item.splits it s ↔ ∃ u, s = u ++ r ∧ Item.lang it u := by
  cases it with
  | atom a =>
    cases s with
    | nil =>
      simp only [Item.splits, List.not_mem_nil, false_iff]
      rintro ⟨u, hu, c, rfl, -⟩
      cases hu
    | cons c s =>
      simp only [Item.splits, Item.lang]
      by_cases hm : Atom.matchesChar a c = true
      · rw [if_pos hm]
        simp only [List.mem_singleton]
        constructor
        · rintro rfl
          exact ⟨[c], rfl, c, rfl, hm⟩
        · rintro ⟨u, hu, d, rfl, hd⟩
          simp only [List.singleton_append, List.cons.injEq] at hu
          exact hu.2.symm
      · rw [if_neg hm]
        simp only [List.not_mem_nil, false_iff]
        rintro ⟨u, hu, d, rfl, hd⟩
        simp only [List.singleton_append, List.cons.injEq] at hu
        exact hm (by rw [hu.1]; exact hd)
  | star a =>
    simp only [Item.splits, Item.lang]
    exact mem_starSplits
  | plus a =>
    cases s with
    | nil =>
      simp only [Item.splits, List.not_mem_nil, false_iff]
      rintro ⟨u, hu, hne, -⟩
      rcases List.append_eq_nil.mp hu.symm with ⟨rfl, -⟩
      exact hne rfl
    | cons c s =>
      simp only [Item.splits, Item.lang]
      by_cases hm : Atom.matchesChar a c = true
      · rw [if_pos hm, mem_starSplits]
        constructor
        · rintro ⟨u, rfl, hall⟩
          refine ⟨c :: u, rfl, by simp, ?_⟩
          intro d hd
          rcases List.mem_cons.mp hd with rfl | hd
          · exact hm
          · exact hall d hd
        · rintro ⟨u, hu, hne, hall⟩
          cases u with
          | nil => exact absurd rfl hne
          | cons d u =>
            have hu' : c = d ∧ s = u ++ r := by
              simpa using hu
            exact ⟨u, hu'.2, fun e he => hall e (List.mem_cons_of_mem _ he)⟩
      · rw [if_neg hm]
        simp only [List.not_mem_nil, false_iff]
        rintro ⟨u, hu, hne, hall⟩
        cases u with
        | nil => exact hne rfl
        | cons d u =>
          have hu' : c = d ∧ s = u ++ r := by
            simpa using hu
          exact hm (by rw [hu'.1]; exact hall d (List.mem_cons_self _ _))
  | rep a n =>
    simp only [Item.splits, Item.lang]
    exact mem_repSplits

/-- The suffixes reachable through a whole item sequence are exactly those
obtained by removing a prefix that lies in the language of the sequence. -/
theorem mem_seqSplits {items : List Item} {s r : List Char} :
    r ∈ seqSplits items s ↔ ∃ u, s = u ++ r ∧ itemsLang items u := by
  induction items generalizing s with
  | nil =>
    simp only [seqSplits, List.mem_singleton, itemsLang]
    constructor
    · rintro rfl
      exact ⟨[], rfl, rfl⟩
    · rintro ⟨u, hu, rfl⟩
      exact hu.symm
  | cons it items ih =>
    simp only [seqSplits, List.mem_flatMap]
    constructor
    · rintro ⟨r1, hr1, hr⟩
      obtain ⟨u1, rfl, hl1⟩ := mem_itemSplits.mp hr1
      obtain ⟨u2, rfl, hl2⟩ := ih.mp hr
      exact ⟨u1 ++ u2, by rw [List.append_assoc], u1, u2, rfl, hl1, hl2⟩
    · rintro ⟨u, hu, hl⟩
      obtain ⟨u1, u2, rfl, hl1, hl2⟩ := hl
      exact ⟨u2 ++ r, mem_itemSplits.mpr ⟨u1, by rw [hu, List.append_assoc], hl1⟩,
        ih.mpr ⟨u2, rfl, hl2⟩⟩

/-- A matching attempt succeeds exactly on the inputs accepted by the
anchored pattern: members of the pattern language, or members followed by
one final newline. -/
theorem matchSeq_iff_acceptsPy {items : List Item} {s : List Char} :
    matchSeq items s = true ↔ acceptsPy items s := by
  simp only [matchSeq, List.any_eq_true, acceptsPy]
  constructor
  · rintro ⟨r, hr, hd⟩
    obtain ⟨u, rfl, hl⟩ := mem_seqSplits.mp hr
    have : r = [] ∨ r = ['\n'] := by
      simpa [dollarOk] using hd
    rcases this with rfl | rfl
    · left
      simpa using hl
    · right
      exact ⟨u, rfl, hl⟩
  · rintro (h | ⟨t, rfl, h⟩)
    · exact ⟨[], mem_seqSplits.mpr ⟨s, by simp, h⟩, by simp [dollarOk]⟩
    · exact ⟨['\n'], mem_seqSplits.mpr ⟨t, rfl, h⟩, by simp [dollarOk]⟩

/-- `re.search` of an anchored pattern accepts exactly the pattern language
together with its one-trailing-newline extensions. -/
theorem reSearch_iff_acceptsPy {items : List Item} {s : List Char} :
    reSearch items s = true ↔ acceptsPy items s := by
  rw [reSearch_eq]
  exact matchSeq_iff_acceptsPy

/-- A pattern that begins with a literal character only matches inputs that
begin with that character. -/
theorem matchSeq_ch_head {c : Char} {items : List Item} {s : List Char}
    (h : matchSeq (Item.atom (Atom.ch c) :: items) s = true) : ∃ t, s = c :: t := by
  rcases matchSeq_iff_acceptsPy.mp h with hl | ⟨t, rfl, hl⟩
  · obtain ⟨u1, u2, rfl, ⟨d, rfl, hd⟩, -⟩ := hl
    have hcd : c = d := by
      simpa [Atom.matchesChar] using hd
    exact ⟨u2, by rw [hcd]; rfl⟩
  · obtain ⟨u1, u2, rfl, ⟨d, rfl, hd⟩, -⟩ := hl
    have hcd : c = d := by
      simpa [Atom.matchesChar] using hd
    exact ⟨u2 ++ ['\n'], by rw [hcd]; rfl⟩

/-- Filenames matched by the Gummy Google Apps module start with `g`. -/
theorem gummy_matches_head {f : String} (h : GappsGummy.«matches» f = true) :
    ∃ t, f.data = 'g' :: t := by
  have h' : matchSeq GappsGummy.filename_regex f.data = true := by
    rw [← reSearch_eq]
    exact h
  have e : GappsGummy.filename_regex =
      Item.atom (Atom.ch 'g') :: (lit "apps-kk-" ++ [Item.rep Atom.digit 8] ++ lit ".zip") := by
    decide
  rw [e] at h'
  exact matchSeq_ch_head h'

/-- Filenames matched by the AOSP module start with `a`. -/
theorem aosp_matches_head {f : String} (h : Aosp.«matches» f = true) :
    ∃ t, f.data = 'a' :: t := by
  have h' : matchSeq Aosp.filename_regex f.data = true := by
    rw [← reSearch_eq]
    exact h
  have e : Aosp.filename_regex =
      Item.atom (Atom.ch 'a') :: (lit "osp" ++ [Item.plus Atom.digit] ++ lit "-i9505-" ++
        [Item.star Atom.dot] ++ lit ".zip") := by
    decide
  rw [e] at h'
  exact matchSeq_ch_head h'

/-- Filenames matched by the Google Edition module start with `i`. -/
theorem ge_matches_head {f : String} (h : GeMaKTaiL.«matches» f = true) :
    ∃ t, f.data = 'i' :: t := by
  have h' : matchSeq GeMaKTaiL.filename_regex f.data = true := by
    rw [← reSearch_eq]
    exact h
  have e : GeMaKTaiL.filename_regex =
      Item.atom (Atom.ch 'i') :: (lit "9505-ge-untouched-4" ++ [Item.atom Atom.dot] ++ lit "3-" ++
        [Item.star Atom.dot, Item.atom Atom.dot] ++ lit "zip") := by
    decide
  rw [e] at h'
  exact matchSeq_ch_head h'

/-- A call of `matches` leaves the module state exactly as it found it. -/
theorem matchesSt_state (st : ModuleState) (f : String) : (matchesSt st f).2 = st := by
  unfold matchesSt
  split <;> rfl

/-- Any sequence of `matches` calls leaves the module state exactly as it
found it. -/
theorem runMatches_id (st : ModuleState) (fs : List String) : runMatches st fs = st := by
  induction fs generalizing st with
  | nil => rfl
  | cons f fs ih =>
    show runMatches (matchesSt st f).2 fs = st
    rw [matchesSt_state]
    exact ih st

end DBP

namespace DBP

/-- C1: the three registered matchers are pairwise disjoint: for every
filename string, at most one of the three modules (Gummy Google Apps,
Broodplank AOSP, MaKTaiL Google Edition) has `matches` return True, so
resolution over these three descriptors never encounters a multiple-match
ambiguity. -/
theorem matchers_pairwise_disjoint (f : String) :
    ([GappsGummy.«matches» f, Aosp.«matches» f, GeMaKTaiL.«matches» f].count true) ≤ 1 := by
  have hga : GappsGummy.«matches» f = true → Aosp.«matches» f = true → False := by
    intro hg ha
    obtain ⟨t, ht⟩ := gummy_matches_head hg
    obtain ⟨u, hu⟩ := aosp_matches_head ha
    rw [ht] at hu
    injection hu with h1 _
    exact absurd h1 (by decide)
  have hgi : GappsGummy.«matches» f = true → GeMaKTaiL.«matches» f = true → False := by
    intro hg hi
    obtain ⟨t, ht⟩ := gummy_matches_head hg
    obtain ⟨u, hu⟩ := ge_matches_head hi
    rw [ht] at hu
    injection hu with h1 _
    exact absurd h1 (by decide)
  have hai : Aosp.«matches» f = true → GeMaKTaiL.«matches» f = true → False := by
    intro ha hi
    obtain ⟨t, ht⟩ := aosp_matches_head ha
    obtain ⟨u, hu⟩ := ge_matches_head hi
    rw [ht] at hu
    injection hu with h1 _
    exact absurd h1 (by decide)
  cases hg : GappsGummy.«matches» f <;> cases ha : Aosp.«matches» f <;>
    cases hi : GeMaKTaiL.«matches» f <;>
    first
      | decide
      | exact (hga hg ha).elim
      | exact (hgi hg hi).elim
      | exact (hai ha hi).elim

/-- C2: the filename `gapps-kk-20140615.zip` is matched by the Gummy Google
Apps module, whose descriptor has name `Gummy Google Apps`, has
`has_boot_image` False, and no ramdisk reference. -/
theorem gummy_gapps_scenario :
    GappsGummy.«matches» "gapps-kk-20140615.zip" = true ∧
    GappsGummy.get_file_info.name = some "Gummy Google Apps" ∧
    GappsGummy.get_file_info.has_boot_image = false ∧
    GappsGummy.get_file_info.ramdisk = none :=
  ⟨by decide, rfl, rfl, rfl⟩

/-- C3: the filename `aosp4-i9505-nightly.zip` is matched by the AOSP
module, whose descriptor has ramdisk `jflte/AOSP/AOSP.def` and
`has_boot_image` True (the default, never assigned by the module). -/
theorem aosp_scenario :
    Aosp.«matches» "aosp4-i9505-nightly.zip" = true ∧
    Aosp.get_file_info.ramdisk = some "jflte/AOSP/AOSP.def" ∧
    Aosp.get_file_info.has_boot_image = true :=
  ⟨by decide, rfl, rfl⟩

/-- C4: the filename `i9505-ge-untouched-4.3-release.zip` is matched by the
Google Edition module, whose descriptor has ramdisk
`jflte/GoogleEdition/GoogleEdition.def`. -/
theorem google_edition_scenario :
    GeMaKTaiL.«matches» "i9505-ge-untouched-4.3-release.zip" = true ∧
    GeMaKTaiL.get_file_info.ramdisk = some "jflte/GoogleEdition/GoogleEdition.def" :=
  ⟨by decide, rfl⟩

/-- C5 counterexample: the claim that extending a matching filename by any
non-empty suffix always stops it from matching is false on the code: the
AOSP matcher accepts `aosp4-i9505-a.zip`, the suffix `.zip` is non-empty,
and the matcher also accepts the extended filename `aosp4-i9505-a.zip.zip`
(the `.*` of the pattern absorbs the first `.zip`). -/
theorem suffix_extension_still_matches :
    Aosp.«matches» "aosp4-i9505-a.zip" = true ∧
    (".zip" : String) ≠ "" ∧
    Aosp.«matches» ("aosp4-i9505-a.zip" ++ ".zip") = true := by
  refine ⟨by decide, by decide, ?_⟩
  decide

/-- C5 (amended): matching is anchored relative to the pattern language
under the Python `$` convention: each of the three matchers accepts exactly
the strings of its pattern language together with those strings followed by
one final newline. Hence an extended filename `f ++ s` or `s ++ f` of a
matching `f` matches only when the extended string itself is of that form;
a suffix keeping the extension inside the language (such as a second `.zip`
absorbed by `.*`, or a lone trailing newline) does still match. -/
theorem matchers_anchored_iff_language (t : String) :
    (GappsGummy.«matches» t = true ↔ acceptsPy GappsGummy.filename_regex t.data) ∧
    (Aosp.«matches» t = true ↔ acceptsPy Aosp.filename_regex t.data) ∧
    (GeMaKTaiL.«matches» t = true ↔ acceptsPy GeMaKTaiL.filename_regex t.data) :=
  ⟨reSearch_iff_acceptsPy, reSearch_iff_acceptsPy, reSearch_iff_acceptsPy⟩

/-- C6: on the empty filename each of the three matchers returns False (and
the embedded matcher is a total function, so no error is possible). -/
theorem empty_filename_no_match :
    GappsGummy.«matches» "" = false ∧
    Aosp.«matches» "" = false ∧
    GeMaKTaiL.«matches» "" = false := by
  decide

/-- C7: renaming a file outside the pattern language stops it from
matching: the AOSP matcher accepts `aosp4-i9505-build.zip` and rejects
`aosp4-i9505-build.tar`. -/
theorem aosp_rename_outside_language :
    Aosp.«matches» "aosp4-i9505-build.zip" = true ∧
    Aosp.«matches» "aosp4-i9505-build.tar" = false := by
  decide

/-- C8: pattern matching is case-sensitive: for each of the three matchers,
uppercasing the characters of a matching filename yields a filename on
which `matches` returns False; in particular the Gummy Google Apps matcher
rejects `GAPPS-KK-20140615.ZIP` although it accepts
`gapps-kk-20140615.zip`. -/
theorem matchers_case_sensitive (f : String) :
    (GappsGummy.«matches» f = true → GappsGummy.«matches» (uppercased f) = false) ∧
    (Aosp.«matches» f = true → Aosp.«matches» (uppercased f) = false) ∧
    (GeMaKTaiL.«matches» f = true → GeMaKTaiL.«matches» (uppercased f) = false) ∧
    GappsGummy.«matches» "GAPPS-KK-20140615.ZIP" = false ∧
    GappsGummy.«matches» "gapps-kk-20140615.zip" = true := by
  refine ⟨?_, ?_, ?_, by decide, by decide⟩
  · intro h
    obtain ⟨t, ht⟩ := gummy_matches_head h
    cases hu : GappsGummy.«matches» (uppercased f) with
    | false => rfl
    | true =>
      obtain ⟨u, hu'⟩ := gummy_matches_head hu
      rw [show (uppercased f).data = f.data.map Char.toUpper from rfl, ht,
        List.map_cons] at hu'
      injection hu' with h1 _
      exact absurd h1 (by decide)
  · intro h
    obtain ⟨t, ht⟩ := aosp_matches_head h
    cases hu : Aosp.«matches» (uppercased f) with
    | false => rfl
    | true =>
      obtain ⟨u, hu'⟩ := aosp_matches_head hu
      rw [show (uppercased f).data = f.data.map Char.toUpper from rfl, ht,
        List.map_cons] at hu'
      injection hu' with h1 _
      exact absurd h1 (by decide)
  · intro h
    obtain ⟨t, ht⟩ := ge_matches_head h
    cases hu : GeMaKTaiL.«matches» (uppercased f) with
    | false => rfl
    | true =>
      obtain ⟨u, hu'⟩ := ge_matches_head hu
      rw [show (uppercased f).data = f.data.map Char.toUpper from rfl, ht,
        List.map_cons] at hu'
      injection hu' with h1 _
      exact absurd h1 (by decide)

/-- Witness for C8: the case-sensitivity statement applied to the three
concrete matching filenames of the scenarios, each hypothesis discharged by
evaluation. -/
theorem matchers_case_sensitive_witness :
    GappsGummy.«matches» (uppercased "gapps-kk-20140615.zip") = false ∧
    Aosp.«matches» (uppercased "aosp4-i9505-nightly.zip") = false ∧
    GeMaKTaiL.«matches» (uppercased "i9505-ge-untouched-4.3-release.zip") = false :=
  ⟨(matchers_case_sensitive "gapps-kk-20140615.zip").1 (by decide),
    (matchers_case_sensitive "aosp4-i9505-nightly.zip").2.1 (by decide),
    (matchers_case_sensitive "i9505-ge-untouched-4.3-release.zip").2.2.1 (by decide)⟩

/-- C9: each matcher is a pure, deterministic function of the filename:
running any sequence of `matches` calls leaves the state of each of the
three modules unchanged, so a later `matches` call returns the same result
and the same state as a first call would, and `get_file_info` returns the
same descriptor (every field included) before and after the sequence. -/
theorem matchers_pure_state (fs : List String) (f : String) :
    (runMatches GappsGummy.initState fs = GappsGummy.initState ∧
      matchesSt (runMatches GappsGummy.initState fs) f = matchesSt GappsGummy.initState f ∧
      get_file_infoSt (runMatches GappsGummy.initState fs) =
        get_file_infoSt GappsGummy.initState) ∧
    (runMatches Aosp.initState fs = Aosp.initState ∧
      matchesSt (runMatches Aosp.initState fs) f = matchesSt Aosp.initState f ∧
      get_file_infoSt (runMatches Aosp.initState fs) = get_file_infoSt Aosp.initState) ∧
    (runMatches GeMaKTaiL.initState fs = GeMaKTaiL.initState ∧
      matchesSt (runMatches GeMaKTaiL.initState fs) f = matchesSt GeMaKTaiL.initState f ∧
      get_file_infoSt (runMatches GeMaKTaiL.initState fs) =
        get_file_infoSt GeMaKTaiL.initState) := by
  simp [runMatches_id]

/-- C10: the Google Edition pattern contains unescaped dot metacharacters:
`i9505-ge-untouched-4x3-relzip` neither ends in the literal `.zip` nor
contains the literal `4.3`, yet `matches` returns True on it. -/
theorem ge_unescaped_dot_match :
    GeMaKTaiL.«matches» "i9505-ge-untouched-4x3-relzip" = true ∧
    endsWithSeq ".zip".data "i9505-ge-untouched-4x3-relzip".data = false ∧
    containsSeq "4.3".data "i9505-ge-untouched-4x3-relzip".data = false := by
  decide

end DBP
